import Mathlib

/-!
Verification of the `mpflow` reservoir-flow module: a shallow embedding of the
grid container, the transmissibility assembler `transmi`, the boundary imposer
`impose_diriBC`, the upwind convection assembler `convecti`, and the
`PressureSolver` class (constructor, `update`, `step`).  Floating-point values
are modelled by exact rationals.  Fallible Python operations (assertions,
numpy/scipy errors, attribute lookups) are modelled with `Except`.
-/

/-- Python exceptions that the embedded code paths can raise. -/
inductive PyErr where
  | valueError
  | assertionError
  | indexError
  | attributeError
deriving DecidableEq

/-- Embeds `Grid(nx, ny, lx, ly)`: rectangular grid container. -/
structure Grid where
  nx : ℕ
  ny : ℕ
  lx : ℚ
  ly : ℚ

/-- Derived `self.ncell = nx*ny`. -/
def Grid.ncell (g : Grid) : ℕ := g.nx * g.ny

/-- Derived `self.dx = lx/nx`. -/
def Grid.dx (g : Grid) : ℚ := g.lx / (g.nx : ℚ)

/-- Derived `self.dy = ly/ny`. -/
def Grid.dy (g : Grid) : ℚ := g.ly / (g.ny : ℚ)

/-- Derived `self.vol = dx*dy`. -/
def Grid.vol (g : Grid) : ℚ := g.dx * g.dy

/-- A dense 2-D numpy array `(rows, cols)` of rationals, e.g. permeability
`k` of shape `(ny, nx)`.  Out-of-range reads are irrelevant to the embedded
code paths. -/
structure Arr2 where
  rows : ℕ
  cols : ℕ
  f : ℕ → ℕ → ℚ

/-- Face transmissibilities in x:  `tx = zeros((ny, nx+1))` followed by
`tx[:,1:nx] = (2*dy/dx)/(kinv[:,0:nx-1]+kinv[:,1:nx])` with `kinv = 1.0/k`. -/
def txArr (g : Grid) (k : ℕ → ℕ → ℚ) (i j : ℕ) : ℚ :=
  if i < g.ny ∧ 1 ≤ j ∧ j < g.nx then
    2 * g.dy / g.dx / (1 / k i (j - 1) + 1 / k i j)
  else 0

/-- Face transmissibilities in y:  `ty = zeros((ny+1, nx))` followed by
`ty[1:ny,:] = (2*dx/dy)/(kinv[0:ny-1,:]+kinv[1:ny,:])`. -/
def tyArr (g : Grid) (k : ℕ → ℕ → ℚ) (i j : ℕ) : ℚ :=
  if 1 ≤ i ∧ i < g.ny ∧ j < g.nx then
    2 * g.dx / g.dy / (1 / k (i - 1) j + 1 / k i j)
  else 0

/-- Embeds `x1 = tx[:,0:nx].reshape(n)` (row-major): west face of cell `m`. -/
def x1v (g : Grid) (k : ℕ → ℕ → ℚ) (m : ℕ) : ℚ := txArr g k (m / g.nx) (m % g.nx)

/-- Embeds `x2 = tx[:,1:nx+1].reshape(n)`: east face of cell `m`. -/
def x2v (g : Grid) (k : ℕ → ℕ → ℚ) (m : ℕ) : ℚ := txArr g k (m / g.nx) (m % g.nx + 1)

/-- Embeds `y1 = ty[0:ny,:].reshape(n)`: south face of cell `m`. -/
def y1v (g : Grid) (k : ℕ → ℕ → ℚ) (m : ℕ) : ℚ := tyArr g k (m / g.nx) (m % g.nx)

/-- Embeds `y2 = ty[1:ny+1,:].reshape(n)`: north face of cell `m`. -/
def y2v (g : Grid) (k : ℕ → ℕ → ℚ) (m : ℕ) : ℚ := tyArr g k (m / g.nx + 1) (m % g.nx)

/-- Entry `(r, c)` of `scipy.sparse.spdiags(data, [-nx,-1,0,1,nx], n, n)`
for pairwise-distinct offsets (`2 ≤ nx`): the value on diagonal `d = c - r`
is the data vector of that diagonal indexed by the COLUMN `c` (the
MATLAB/scipy alignment convention); entries off the five diagonals, or out of
the `n × n` bounds, are zero. -/
def spdiags5 (nx n : ℕ) (dm2 dm1 d0 dp1 dp2 : ℕ → ℚ) (r c : ℕ) : ℚ :=
  if r < n ∧ c < n then
    if c + nx = r then dm2 c
    else if c + 1 = r then dm1 c
    else if c = r then d0 c
    else if c = r + 1 then dp1 c
    else if c = r + nx then dp2 c
    else 0
  else 0

/-- Stored (structural) positions of the pentadiagonal CSR matrix produced by
`spdiags(..., format='csr')`: all in-bound positions on the five diagonals. -/
def stored5 (nx n : ℕ) : Finset (ℕ × ℕ) :=
  (Finset.range n ×ˢ Finset.range n).filter
    (fun p => p.2 + nx = p.1 ∨ p.2 + 1 = p.1 ∨ p.2 = p.1 ∨ p.2 = p.1 + 1 ∨ p.2 = p.1 + nx)

/-- A scipy CSR matrix: the entry values together with the set of stored
(structural) positions.  A well-formed CSR matrix is zero outside its stored
positions (`SpMat.Wf`). -/
@[ext] structure SpMat where
  val : ℕ → ℕ → ℚ
  stored : Finset (ℕ × ℕ)

/-- CSR representation invariant: entries that are not stored read as zero. -/
def SpMat.Wf (M : SpMat) : Prop := ∀ r c : ℕ, (r, c) ∉ M.stored → M.val r c = 0

/-- Embeds `spdiags(data, [-nx,-1,0,1,nx], n, n, format='csr')`.  scipy's
`dia_matrix` constructor raises `ValueError` when the offset array contains
duplicate values, which for this offset pattern happens exactly when
`nx <= 1`. -/
def spdiagsPenta (nx n : ℕ) (dm2 dm1 d0 dp1 dp2 : ℕ → ℚ) : Except PyErr SpMat :=
  if nx ≤ 1 then .error .valueError
  else .ok ⟨spdiags5 nx n dm2 dm1 d0 dp1 dp2, stored5 nx n⟩

/-- Embeds `transmi(grid, k)`: assemble the pressure-system matrix and the face
transmissibilities, with `data = [-y2, -x2, x1+x2+y1+y2, -x1, -y1]` on
diagonals `[-nx, -1, 0, 1, nx]`. -/
def transmi (g : Grid) (k : ℕ → ℕ → ℚ) :
    Except PyErr (SpMat × (ℕ → ℕ → ℚ) × (ℕ → ℕ → ℚ)) :=
  match spdiagsPenta g.nx g.ncell
      (fun m => -y2v g k m) (fun m => -x2v g k m)
      (fun m => x1v g k m + x2v g k m + y1v g k m + y2v g k m)
      (fun m => -x1v g k m) (fun m => -y1v g k m) with
  | .error e => .error e
  | .ok mat => .ok (mat, txArr g k, tyArr g k)

section IndexArith

/-- Row-major flattening: quotient of `i*nx + j`. -/
theorem cell_div (nx i j : ℕ) (hx : 0 < nx) (hj : j < nx) : (i * nx + j) / nx = i := by
  rw [Nat.mul_comm i nx, Nat.mul_add_div hx, Nat.div_eq_of_lt hj, Nat.add_zero]

/-- Row-major flattening: remainder of `i*nx + j`. -/
theorem cell_mod (nx i j : ℕ) (hj : j < nx) : (i * nx + j) % nx = j := by
  rw [Nat.mul_comm i nx, Nat.mul_add_mod nx i j, Nat.mod_eq_of_lt hj]

/-- Cells of the grid have indices below `nx*ny`. -/
theorem cell_lt (nx ny i j : ℕ) (hi : i < ny) (hj : j < nx) : i * nx + j < nx * ny :=
  calc i * nx + j < (i + 1) * nx := by nlinarith
  _ ≤ ny * nx := Nat.mul_le_mul_right nx hi
  _ = nx * ny := Nat.mul_comm ny nx

theorem cell_decomp (nx r : ℕ) : r / nx * nx + r % nx = r := by
  rw [Nat.mul_comm]; exact Nat.div_add_mod r nx

theorem cell_row_lt (nx ny r : ℕ) (hx : 0 < nx) (hr : r < nx * ny) : r / nx < ny := by
  rw [Nat.div_lt_iff_lt_mul hx, Nat.mul_comm ny nx]; exact hr

/-- Every flat index decomposes as `i*nx + j` with `j < nx`. -/
theorem exists_cell (nx m : ℕ) (hx : 0 < nx) : ∃ i j, j < nx ∧ m = i * nx + j :=
  ⟨m / nx, m % nx, Nat.mod_lt m hx, (cell_decomp nx m).symm⟩

end IndexArith

section ShiftLemmas

/-- The east face of cell `m` is the west face of cell `m+1`: within a row
they are the same face, and across the row boundary both are zero no-flow
faces. -/
theorem x2v_succ (g : Grid) (k : ℕ → ℕ → ℚ) (hx : 0 < g.nx) (m : ℕ) :
    x2v g k m = x1v g k (m + 1) := by
  obtain ⟨i, j, hj, rfl⟩ := exists_cell g.nx m hx
  unfold x1v x2v
  rw [cell_div g.nx i j hx hj, cell_mod g.nx i j hj]
  rcases Nat.lt_or_ge (j + 1) g.nx with hlt | hge
  · rw [show i * g.nx + j + 1 = i * g.nx + (j + 1) by omega,
      cell_div g.nx i (j + 1) hx hlt, cell_mod g.nx i (j + 1) hlt]
  · have heq : j + 1 = g.nx := by omega
    rw [show i * g.nx + j + 1 = (i + 1) * g.nx + 0 by rw [Nat.add_mul]; omega,
      cell_div g.nx (i + 1) 0 hx hx, cell_mod g.nx (i + 1) 0 hx, heq]
    unfold txArr
    rw [if_neg (by omega), if_neg (by omega)]

/-- The north face of cell `m` is the south face of cell `m + nx`. -/
theorem y2v_shift (g : Grid) (k : ℕ → ℕ → ℚ) (hx : 0 < g.nx) (m : ℕ) :
    y2v g k m = y1v g k (m + g.nx) := by
  unfold y1v y2v
  rw [Nat.add_div_right m hx, Nat.add_mod_right]

end ShiftLemmas

section TransmiElim

/-- A successful `transmi` forces distinct diagonal offsets, i.e. `2 ≤ nx`. -/
theorem transmi_nx2 (g : Grid) (k : ℕ → ℕ → ℚ) (mat : SpMat) (tx ty : ℕ → ℕ → ℚ)
    (h : transmi g k = .ok (mat, tx, ty)) : 2 ≤ g.nx := by
  by_contra hx
  unfold transmi spdiagsPenta at h
  rw [if_pos (by omega)] at h
  simp at h

/-- For `2 ≤ nx`, `transmi` succeeds and returns exactly the pentadiagonal
matrix together with the face-transmissibility arrays. -/
theorem transmi_eq (g : Grid) (k : ℕ → ℕ → ℚ) (hx : 2 ≤ g.nx) :
    transmi g k = .ok
      (⟨spdiags5 g.nx g.ncell (fun m => -y2v g k m) (fun m => -x2v g k m)
          (fun m => x1v g k m + x2v g k m + y1v g k m + y2v g k m)
          (fun m => -x1v g k m) (fun m => -y1v g k m), stored5 g.nx g.ncell⟩,
        txArr g k, tyArr g k) := by
  unfold transmi spdiagsPenta
  rw [if_neg (by omega)]

/-- Components of a successful `transmi` result. -/
theorem transmi_ok (g : Grid) (k : ℕ → ℕ → ℚ) (mat : SpMat) (tx ty : ℕ → ℕ → ℚ)
    (h : transmi g k = .ok (mat, tx, ty)) :
    2 ≤ g.nx ∧
    mat.val = spdiags5 g.nx g.ncell
      (fun m => -y2v g k m) (fun m => -x2v g k m)
      (fun m => x1v g k m + x2v g k m + y1v g k m + y2v g k m)
      (fun m => -x1v g k m) (fun m => -y1v g k m) ∧
    mat.stored = stored5 g.nx g.ncell ∧ tx = txArr g k ∧ ty = tyArr g k := by
  have hx := transmi_nx2 g k mat tx ty h
  rw [transmi_eq g k hx] at h
  simp only [Except.ok.injEq, Prod.mk.injEq] at h
  obtain ⟨h1, h2, h3⟩ := h
  exact ⟨hx, by rw [← h1], by rw [← h1], h2.symm, h3.symm⟩

end TransmiElim

section RowSum

/-- Sum over a guarded subdiagonal term: only the column `rr - t` survives. -/
theorem sum_shift_down (n t rr : ℕ) (f : ℕ → ℚ) (hrr : rr < n) :
    ∑ c ∈ Finset.range n, (if c + t = rr then f c else 0)
      = if t ≤ rr then f (rr - t) else 0 := by
  by_cases h : t ≤ rr
  · rw [Finset.sum_congr rfl
      (fun c _ => if_congr (show c + t = rr ↔ c = rr - t by omega) rfl rfl),
      Finset.sum_ite_eq' (Finset.range n) (rr - t) f,
      if_pos (Finset.mem_range.mpr (by omega)), if_pos h]
  · rw [if_neg h]
    exact Finset.sum_eq_zero (fun c _ => if_neg (by omega))

/-- Sum over a guarded superdiagonal term: only the column `rr + t` survives. -/
theorem sum_shift_up (n t rr : ℕ) (f : ℕ → ℚ) :
    ∑ c ∈ Finset.range n, (if c = rr + t then f c else 0)
      = if rr + t < n then f (rr + t) else 0 := by
  rw [Finset.sum_ite_eq' (Finset.range n) (rr + t) f]
  by_cases h : rr + t < n
  · rw [if_pos (Finset.mem_range.mpr h), if_pos h]
  · rw [if_neg (fun hm => h (Finset.mem_range.mp hm)), if_neg h]

/-- Within the matrix block, an entry of the pentadiagonal matrix is the sum
of five mutually exclusive guarded diagonal terms. -/
theorem spdiags5_split (nx n : ℕ) (A B D E F : ℕ → ℚ) (hx : 2 ≤ nx) (r c : ℕ)
    (hr : r < n) (hc : c < n) :
    spdiags5 nx n A B D E F r c
      = (if c + nx = r then A c else 0) + (if c + 1 = r then B c else 0)
        + (if c = r then D c else 0) + (if c = r + 1 then E c else 0)
        + (if c = r + nx then F c else 0) := by
  unfold spdiags5
  rw [if_pos ⟨hr, hc⟩]
  split_ifs <;> first | ring1 | (exfalso; omega)

/-- The south coupling of row `r` cancels the `y1` face of cell `r`. -/
theorem south_cancel (g : Grid) (k : ℕ → ℕ → ℚ) (hx : 0 < g.nx) (r : ℕ) :
    (if g.nx ≤ r then -y2v g k (r - g.nx) else 0) = -y1v g k r := by
  by_cases h : g.nx ≤ r
  · rw [if_pos h, y2v_shift g k hx (r - g.nx), Nat.sub_add_cancel h]
  · rw [if_neg h]
    unfold y1v tyArr
    rw [Nat.div_eq_of_lt (by omega), if_neg (by omega)]
    exact neg_zero.symm

/-- The north coupling of row `r` cancels the `y2` face of cell `r`. -/
theorem north_cancel (g : Grid) (k : ℕ → ℕ → ℚ) (hx : 0 < g.nx) (r : ℕ) :
    (if r + g.nx < g.ncell then -y1v g k (r + g.nx) else 0) = -y2v g k r := by
  by_cases h : r + g.nx < g.ncell
  · rw [if_pos h, ← y2v_shift g k hx r]
  · rw [if_neg h]
    obtain ⟨i, j, hj, rfl⟩ := exists_cell g.nx r hx
    unfold y2v
    rw [cell_div g.nx i j hx hj, cell_mod g.nx i j hj]
    have hy : ¬ (i + 1 < g.ny) := by
      intro hlt
      apply h
      unfold Grid.ncell
      calc i * g.nx + j + g.nx = (i + 1) * g.nx + j := by rw [Nat.add_mul]; omega
      _ < g.nx * g.ny := cell_lt g.nx g.ny (i + 1) j hlt hj
    unfold tyArr
    rw [if_neg (fun hc => hy hc.2.1)]
    exact neg_zero.symm

/-- The west coupling of row `r` cancels the `x1` face of cell `r`. -/
theorem west_cancel (g : Grid) (k : ℕ → ℕ → ℚ) (hx : 0 < g.nx) (r : ℕ) :
    (if 1 ≤ r then -x2v g k (r - 1) else 0) = -x1v g k r := by
  by_cases h : 1 ≤ r
  · rw [if_pos h, x2v_succ g k hx (r - 1), Nat.sub_add_cancel h]
  · rw [if_neg h]
    have h0 : r = 0 := by omega
    subst h0
    unfold x1v txArr
    rw [Nat.zero_div, Nat.zero_mod, if_neg (by omega)]
    exact neg_zero.symm

/-- The east coupling of row `r` cancels the `x2` face of cell `r`. -/
theorem east_cancel (g : Grid) (k : ℕ → ℕ → ℚ) (hx : 0 < g.nx) (r : ℕ)
    (hr : r < g.ncell) :
    (if r + 1 < g.ncell then -x1v g k (r + 1) else 0) = -x2v g k r := by
  by_cases h : r + 1 < g.ncell
  · rw [if_pos h, ← x2v_succ g k hx r]
  · rw [if_neg h]
    obtain ⟨i, j, hj, rfl⟩ := exists_cell g.nx r hx
    unfold x2v
    rw [cell_div g.nx i j hx hj, cell_mod g.nx i j hj]
    have hcomm : g.nx * g.ny = g.ny * g.nx := Nat.mul_comm g.nx g.ny
    have hi : i < g.ny := by
      by_contra hni
      have hle : g.ny * g.nx ≤ i * g.nx := Nat.mul_le_mul_right g.nx (by omega)
      unfold Grid.ncell at hr
      omega
    have hj2 : ¬ (j + 1 < g.nx) := by
      intro hlt
      apply h
      unfold Grid.ncell
      calc i * g.nx + j + 1 = i * g.nx + (j + 1) := by omega
      _ < g.nx * g.ny := cell_lt g.nx g.ny i (j + 1) hi hlt
    unfold txArr
    rw [if_neg (fun hc => hj2 hc.2.2)]
    exact neg_zero.symm

end RowSum

/-- C3: for every grid with positive `nx`, `ny` and strictly positive
permeability field `k` of shape `(ny, nx)`, each row of the matrix returned
by `transmi(grid, k)` sums to exactly zero: the diagonal entry
`x1+x2+y1+y2` is cancelled by the four off-diagonal couplings (boundary
faces contribute zero on both sides). -/
theorem transmi_row_sum_zero (g : Grid) (k : ℕ → ℕ → ℚ)
    (hnx : 0 < g.nx) (hny : 0 < g.ny)
    (hk : ∀ i, i < g.ny → ∀ j, j < g.nx → 0 < k i j)
    (mat : SpMat) (tx ty : ℕ → ℕ → ℚ) (h : transmi g k = .ok (mat, tx, ty)) :
    ∀ r, r < g.ncell → ∑ c ∈ Finset.range g.ncell, mat.val r c = 0 := by
  obtain ⟨hx2, hval, hst, htx, hty⟩ := transmi_ok g k mat tx ty h
  intro r hr
  rw [hval]
  rw [Finset.sum_congr rfl (fun c hc =>
    spdiags5_split g.nx g.ncell _ _ _ _ _ hx2 r c hr (Finset.mem_range.mp hc))]
  rw [Finset.sum_add_distrib, Finset.sum_add_distrib, Finset.sum_add_distrib,
    Finset.sum_add_distrib]
  rw [sum_shift_down g.ncell g.nx r _ hr, sum_shift_down g.ncell 1 r _ hr]
  rw [Finset.sum_ite_eq' (Finset.range g.ncell) r _, if_pos (Finset.mem_range.mpr hr)]
  rw [sum_shift_up g.ncell 1 r _, sum_shift_up g.ncell g.nx r _]
  simp only [south_cancel g k hnx r, west_cancel g k hnx r,
    east_cancel g k hnx r hr, north_cancel g k hnx r]
  ring

section EntryLemmas

theorem spdiags5_diag (nx n : ℕ) (A B D E F : ℕ → ℚ) (hx : 0 < nx) (m : ℕ)
    (hm : m < n) : spdiags5 nx n A B D E F m m = D m := by
  unfold spdiags5
  rw [if_pos ⟨hm, hm⟩, if_neg (by omega), if_neg (by omega), if_pos rfl]

theorem spdiags5_west (nx n : ℕ) (A B D E F : ℕ → ℚ) (hx : 2 ≤ nx) (m : ℕ)
    (hm : m < n) (h1 : 1 ≤ m) : spdiags5 nx n A B D E F m (m - 1) = B (m - 1) := by
  unfold spdiags5
  rw [if_pos ⟨hm, by omega⟩, if_neg (by omega), if_pos (by omega)]

theorem spdiags5_east (nx n : ℕ) (A B D E F : ℕ → ℚ) (m : ℕ)
    (hm : m + 1 < n) : spdiags5 nx n A B D E F m (m + 1) = E (m + 1) := by
  unfold spdiags5
  rw [if_pos ⟨by omega, hm⟩, if_neg (by omega), if_neg (by omega), if_neg (by omega),
    if_pos rfl]

theorem spdiags5_south (nx n : ℕ) (A B D E F : ℕ → ℚ) (hx : 0 < nx) (m : ℕ)
    (hm : m < n) (h1 : nx ≤ m) : spdiags5 nx n A B D E F m (m - nx) = A (m - nx) := by
  unfold spdiags5
  rw [if_pos ⟨hm, by omega⟩, if_pos (by omega)]

theorem spdiags5_north (nx n : ℕ) (A B D E F : ℕ → ℚ) (hx : 2 ≤ nx) (m : ℕ)
    (hm : m + nx < n) : spdiags5 nx n A B D E F m (m + nx) = F (m + nx) := by
  unfold spdiags5
  rw [if_pos ⟨by omega, hm⟩, if_neg (by omega), if_neg (by omega), if_neg (by omega),
    if_neg (by omega), if_pos rfl]

end EntryLemmas

/-- C4: for every grid and strictly positive `k` of shape `(ny, nx)`,
`transmi(grid, k)` returns `tx` with the harmonic-mean formula on interior
faces and zero no-flow boundary faces, `ty` analogously, and a matrix whose
row of cell `m = i*nx + j` carries `-tx[i,j]` at column `m-1`, `-tx[i,j+1]`
at column `m+1`, `-ty[i,j]` at column `m-nx`, `-ty[i+1,j]` at column `m+nx`
(when those neighbours exist) and `tx[i,j]+tx[i,j+1]+ty[i,j]+ty[i+1,j]` on
the diagonal. -/
theorem transmi_entries (g : Grid) (k : ℕ → ℕ → ℚ)
    (hk : ∀ i, i < g.ny → ∀ j, j < g.nx → 0 < k i j)
    (mat : SpMat) (tx ty : ℕ → ℕ → ℚ) (h : transmi g k = .ok (mat, tx, ty))
    (i j m : ℕ) (hi : i < g.ny) (hj : j < g.nx) (hm : m = i * g.nx + j) :
    tx i 0 = 0 ∧ tx i g.nx = 0 ∧ ty 0 j = 0 ∧ ty g.ny j = 0
    ∧ (1 ≤ j → tx i j = 2 * g.dy / g.dx / (1 / k i (j - 1) + 1 / k i j))
    ∧ (1 ≤ i → ty i j = 2 * g.dx / g.dy / (1 / k (i - 1) j + 1 / k i j))
    ∧ mat.val m m = tx i j + tx i (j + 1) + ty i j + ty (i + 1) j
    ∧ (1 ≤ j → mat.val m (m - 1) = -tx i j)
    ∧ (j + 1 < g.nx → mat.val m (m + 1) = -tx i (j + 1))
    ∧ (1 ≤ i → mat.val m (m - g.nx) = -ty i j)
    ∧ (i + 1 < g.ny → mat.val m (m + g.nx) = -ty (i + 1) j) := by
  obtain ⟨hx2, hval, hst, htx, hty⟩ := transmi_ok g k mat tx ty h
  subst htx hty hm
  have hx : 0 < g.nx := by omega
  have hmn : i * g.nx + j < g.ncell := cell_lt g.nx g.ny i j hi hj
  refine ⟨?_, ?_, ?_, ?_, ?_, ?_, ?_, ?_, ?_, ?_, ?_⟩
  · unfold txArr; rw [if_neg (by omega)]
  · unfold txArr; rw [if_neg (by omega)]
  · unfold tyArr; rw [if_neg (by omega)]
  · unfold tyArr; rw [if_neg (by omega)]
  · intro h1; unfold txArr; rw [if_pos ⟨hi, h1, hj⟩]
  · intro h1; unfold tyArr; rw [if_pos ⟨h1, hi, hj⟩]
  · rw [hval, spdiags5_diag g.nx g.ncell _ _ _ _ _ hx _ hmn]
    show x1v g k (i * g.nx + j) + x2v g k (i * g.nx + j) + y1v g k (i * g.nx + j)
        + y2v g k (i * g.nx + j)
      = txArr g k i j + txArr g k i (j + 1) + tyArr g k i j + tyArr g k (i + 1) j
    unfold x1v x2v y1v y2v
    rw [cell_div g.nx i j hx hj, cell_mod g.nx i j hj]
  · intro h1
    rw [hval, spdiags5_west g.nx g.ncell _ _ _ _ _ hx2 _ hmn (by omega)]
    show -x2v g k (i * g.nx + j - 1) = -txArr g k i j
    rw [show i * g.nx + j - 1 = i * g.nx + (j - 1) by omega]
    unfold x2v
    rw [cell_div g.nx i (j - 1) hx (by omega), cell_mod g.nx i (j - 1) (by omega),
      show j - 1 + 1 = j by omega]
  · intro h1
    have hmn1 : i * g.nx + j + 1 < g.ncell := by
      calc i * g.nx + j + 1 = i * g.nx + (j + 1) := by omega
      _ < g.nx * g.ny := cell_lt g.nx g.ny i (j + 1) hi h1
    rw [hval, spdiags5_east g.nx g.ncell _ _ _ _ _ _ hmn1]
    show -x1v g k (i * g.nx + j + 1) = -txArr g k i (j + 1)
    rw [show i * g.nx + j + 1 = i * g.nx + (j + 1) by omega]
    unfold x1v
    rw [cell_div g.nx i (j + 1) hx h1, cell_mod g.nx i (j + 1) h1]
  · intro h1
    have hle : g.nx ≤ i * g.nx := by
      have h2 := Nat.mul_le_mul_right g.nx h1
      rwa [Nat.one_mul] at h2
    rw [hval, spdiags5_south g.nx g.ncell _ _ _ _ _ hx _ hmn (by omega)]
    show -y2v g k (i * g.nx + j - g.nx) = -tyArr g k i j
    rw [show i * g.nx + j - g.nx = (i - 1) * g.nx + j by rw [Nat.sub_one_mul]; omega]
    unfold y2v
    rw [cell_div g.nx (i - 1) j hx hj, cell_mod g.nx (i - 1) j hj,
      show i - 1 + 1 = i by omega]
  · intro h1
    have hmn2 : i * g.nx + j + g.nx < g.ncell := by
      calc i * g.nx + j + g.nx = (i + 1) * g.nx + j := by rw [Nat.add_mul]; omega
      _ < g.nx * g.ny := cell_lt g.nx g.ny (i + 1) j h1 hj
    rw [hval, spdiags5_north g.nx g.ncell _ _ _ _ _ hx2 _ hmn2]
    show -y1v g k (i * g.nx + j + g.nx) = -tyArr g k (i + 1) j
    rw [show i * g.nx + j + g.nx = (i + 1) * g.nx + j by rw [Nat.add_mul]; omega]
    unfold y1v
    rw [cell_div g.nx (i + 1) j hx hj, cell_mod g.nx (i + 1) j hj]

section Symmetry

/-- The assembled pentadiagonal matrix is symmetric: paired off-diagonal
entries read the same shared face. -/
theorem tmat_symm (g : Grid) (k : ℕ → ℕ → ℚ) (hx : 2 ≤ g.nx) (r c : ℕ) :
    spdiags5 g.nx g.ncell (fun m => -y2v g k m) (fun m => -x2v g k m)
      (fun m => x1v g k m + x2v g k m + y1v g k m + y2v g k m)
      (fun m => -x1v g k m) (fun m => -y1v g k m) r c
    = spdiags5 g.nx g.ncell (fun m => -y2v g k m) (fun m => -x2v g k m)
      (fun m => x1v g k m + x2v g k m + y1v g k m + y2v g k m)
      (fun m => -x1v g k m) (fun m => -y1v g k m) c r := by
  unfold spdiags5
  by_cases hb : r < g.ncell ∧ c < g.ncell
  · rw [if_pos hb, if_pos (⟨hb.2, hb.1⟩ : c < g.ncell ∧ r < g.ncell)]
    by_cases h1 : c + g.nx = r
    · rw [if_pos h1, if_neg (show ¬(r + g.nx = c) by omega),
        if_neg (show ¬(r + 1 = c) by omega), if_neg (show ¬(r = c) by omega),
        if_neg (show ¬(r = c + 1) by omega), if_pos (show r = c + g.nx by omega)]
      show -y2v g k c = -y1v g k r
      rw [y2v_shift g k (by omega) c, h1]
    · by_cases h2 : c + 1 = r
      · rw [if_neg h1, if_pos h2, if_neg (show ¬(r + g.nx = c) by omega),
          if_neg (show ¬(r + 1 = c) by omega), if_neg (show ¬(r = c) by omega),
          if_pos (show r = c + 1 by omega)]
        show -x2v g k c = -x1v g k r
        rw [x2v_succ g k (by omega) c, h2]
      · by_cases h3 : c = r
        · rw [if_neg h1, if_neg h2, if_pos h3,
            if_neg (show ¬(r + g.nx = c) by omega),
            if_neg (show ¬(r + 1 = c) by omega), if_pos (show r = c by omega)]
          rw [h3]
        · by_cases h4 : c = r + 1
          · rw [if_neg h1, if_neg h2, if_neg h3, if_pos h4,
              if_neg (show ¬(r + g.nx = c) by omega),
              if_pos (show r + 1 = c by omega)]
            show -x1v g k c = -x2v g k r
            rw [x2v_succ g k (by omega) r, h4]
          · by_cases h5 : c = r + g.nx
            · rw [if_neg h1, if_neg h2, if_neg h3, if_neg h4, if_pos h5,
                if_pos (show r + g.nx = c by omega)]
              show -y1v g k c = -y2v g k r
              rw [y2v_shift g k (by omega) r, h5]
            · rw [if_neg h1, if_neg h2, if_neg h3, if_neg h4, if_neg h5,
                if_neg (show ¬(r + g.nx = c) by omega),
                if_neg (show ¬(r + 1 = c) by omega),
                if_neg (show ¬(r = c) by omega),
                if_neg (show ¬(r = c + 1) by omega),
                if_neg (show ¬(r = c + g.nx) by omega)]
  · rw [if_neg hb, if_neg (fun hcb => hb ⟨hcb.2, hcb.1⟩)]

/-- Face transmissibilities in x are nonnegative for positive permeability
on a grid of positive resolution and extent. -/
theorem txArr_nonneg (g : Grid) (k : ℕ → ℕ → ℚ) (hnx : 0 < g.nx) (hny : 0 < g.ny)
    (hlx : 0 < g.lx) (hly : 0 < g.ly)
    (hk : ∀ i, i < g.ny → ∀ j, j < g.nx → 0 < k i j) (i j : ℕ) :
    0 ≤ txArr g k i j := by
  unfold txArr
  split_ifs with hc
  · obtain ⟨hi, hj1, hj2⟩ := hc
    have hdx : 0 < g.dx := div_pos hlx (Nat.cast_pos.mpr hnx)
    have hdy : 0 < g.dy := div_pos hly (Nat.cast_pos.mpr hny)
    have hk1 : 0 < k i (j - 1) := hk i hi (j - 1) (by omega)
    have hk2 : 0 < k i j := hk i hi j hj2
    have hnum : 0 < 2 * g.dy / g.dx := div_pos (by linarith) hdx
    have hden : 0 < 1 / k i (j - 1) + 1 / k i j :=
      add_pos (one_div_pos.mpr hk1) (one_div_pos.mpr hk2)
    exact le_of_lt (div_pos hnum hden)
  · exact le_refl 0

/-- Face transmissibilities in y are nonnegative. -/
theorem tyArr_nonneg (g : Grid) (k : ℕ → ℕ → ℚ) (hnx : 0 < g.nx) (hny : 0 < g.ny)
    (hlx : 0 < g.lx) (hly : 0 < g.ly)
    (hk : ∀ i, i < g.ny → ∀ j, j < g.nx → 0 < k i j) (i j : ℕ) :
    0 ≤ tyArr g k i j := by
  unfold tyArr
  split_ifs with hc
  · obtain ⟨hi1, hi2, hj⟩ := hc
    have hdx : 0 < g.dx := div_pos hlx (Nat.cast_pos.mpr hnx)
    have hdy : 0 < g.dy := div_pos hly (Nat.cast_pos.mpr hny)
    have hk1 : 0 < k (i - 1) j := hk (i - 1) (by omega) j hj
    have hk2 : 0 < k i j := hk i hi2 j hj
    have hnum : 0 < 2 * g.dx / g.dy := div_pos (by linarith) hdy
    have hden : 0 < 1 / k (i - 1) j + 1 / k i j :=
      add_pos (one_div_pos.mpr hk1) (one_div_pos.mpr hk2)
    exact le_of_lt (div_pos hnum hden)
  · exact le_refl 0

end Symmetry

/-- C10: for every grid and strictly positive permeability field of shape
`(ny, nx)`, the matrix returned by `transmi(grid, k)` is symmetric, every
off-diagonal entry is non-positive and every diagonal entry is
non-negative. -/
theorem transmi_symmetric_signs (g : Grid) (k : ℕ → ℕ → ℚ)
    (hnx : 0 < g.nx) (hny : 0 < g.ny) (hlx : 0 < g.lx) (hly : 0 < g.ly)
    (hk : ∀ i, i < g.ny → ∀ j, j < g.nx → 0 < k i j)
    (mat : SpMat) (tx ty : ℕ → ℕ → ℚ) (h : transmi g k = .ok (mat, tx, ty)) :
    (∀ r c, mat.val r c = mat.val c r)
    ∧ (∀ r c, r ≠ c → mat.val r c ≤ 0)
    ∧ (∀ r, 0 ≤ mat.val r r) := by
  obtain ⟨hx2, hval, hst, htx, hty⟩ := transmi_ok g k mat tx ty h
  have hxn : ∀ m, 0 ≤ x1v g k m := fun m =>
    txArr_nonneg g k hnx hny hlx hly hk _ _
  have hxn2 : ∀ m, 0 ≤ x2v g k m := fun m =>
    txArr_nonneg g k hnx hny hlx hly hk _ _
  have hyn : ∀ m, 0 ≤ y1v g k m := fun m =>
    tyArr_nonneg g k hnx hny hlx hly hk _ _
  have hyn2 : ∀ m, 0 ≤ y2v g k m := fun m =>
    tyArr_nonneg g k hnx hny hlx hly hk _ _
  refine ⟨?_, ?_, ?_⟩
  · intro r c
    rw [hval]
    exact tmat_symm g k hx2 r c
  · intro r c hne
    rw [hval]
    unfold spdiags5
    split_ifs with hb h1 h2 h3 h4 h5
    · exact neg_nonpos.mpr (hyn2 c)
    · exact neg_nonpos.mpr (hxn2 c)
    · exact absurd h3.symm hne
    · exact neg_nonpos.mpr (hxn c)
    · exact neg_nonpos.mpr (hyn c)
    · exact le_refl 0
    · exact le_refl 0
  · intro r
    rw [hval]
    unfold spdiags5
    split_ifs with hb h1 h2 h3 h4 h5
    · exfalso; omega
    · exfalso; omega
    · exact add_nonneg (add_nonneg (add_nonneg (hxn r) (hxn2 r)) (hyn r)) (hyn2 r)
    · exfalso; omega
    · exfalso; omega
    · exact le_refl 0
    · exact le_refl 0

section ConcreteGrid

/-- Concrete `Grid(2, 2)` on the unit square. -/
def gW : Grid := ⟨2, 2, 1, 1⟩

/-- Concrete uniform permeability field. -/
def kW : ℕ → ℕ → ℚ := fun _ _ => 1

/-- The matrix assembled by `transmi` on the concrete grid. -/
def matW : SpMat :=
  ⟨spdiags5 gW.nx gW.ncell (fun m => -y2v gW kW m) (fun m => -x2v gW kW m)
    (fun m => x1v gW kW m + x2v gW kW m + y1v gW kW m + y2v gW kW m)
    (fun m => -x1v gW kW m) (fun m => -y1v gW kW m), stored5 gW.nx gW.ncell⟩

theorem transmiW : transmi gW kW = .ok (matW, txArr gW kW, tyArr gW kW) :=
  transmi_eq gW kW (by decide)

end ConcreteGrid

/-- Witness for C3 at `Grid(2,2)`, `k = 1`, row 0. -/
theorem transmi_row_sum_zero_witness :
    ∑ c ∈ Finset.range gW.ncell, matW.val 0 c = 0 :=
  transmi_row_sum_zero gW kW (by decide) (by decide)
    (fun i _ j _ => one_pos) matW (txArr gW kW) (tyArr gW kW) transmiW 0 (by decide)

/-- Witness for C4 at `Grid(2,2)`, `k = 1`: the diagonal entry of cell 0 and
the west coupling of cell `m = 3` (`i = j = 1`). -/
theorem transmi_entries_witness :
    matW.val 0 0 = txArr gW kW 0 0 + txArr gW kW 0 1 + tyArr gW kW 0 0 + tyArr gW kW 1 0
    ∧ matW.val 3 2 = -txArr gW kW 1 1 :=
  ⟨(transmi_entries gW kW (fun i _ j _ => one_pos) matW (txArr gW kW) (tyArr gW kW)
      transmiW 0 0 0 (by decide) (by decide) rfl).2.2.2.2.2.2.1,
   (transmi_entries gW kW (fun i _ j _ => one_pos) matW (txArr gW kW) (tyArr gW kW)
      transmiW 1 1 3 (by decide) (by decide) rfl).2.2.2.2.2.2.2.1 (by decide)⟩

/-- Witness for C10 at `Grid(2,2)`, `k = 1`. -/
theorem transmi_symmetric_signs_witness :
    matW.val 0 1 = matW.val 1 0 ∧ matW.val 0 1 ≤ 0 ∧ 0 ≤ matW.val 0 0 :=
  ⟨(transmi_symmetric_signs gW kW (by decide) (by decide) (by norm_num [gW])
      (by norm_num [gW]) (fun i _ j _ => one_pos) matW (txArr gW kW) (tyArr gW kW)
      transmiW).1 0 1,
   (transmi_symmetric_signs gW kW (by decide) (by decide) (by norm_num [gW])
      (by norm_num [gW]) (fun i _ j _ => one_pos) matW (txArr gW kW) (tyArr gW kW)
      transmiW).2.1 0 1 (by decide),
   (transmi_symmetric_signs gW kW (by decide) (by decide) (by norm_num [gW])
      (by norm_num [gW]) (fun i _ j _ => one_pos) matW (txArr gW kW) (tyArr gW kW)
      transmiW).2.2 0⟩

section Impose

/-- Modelled from the spec: the helper module `utils` (imported by the source
but not part of it) provides `csr_row_set_nz_to_val(csr, row, value=0)`,
described as a sparse row-zeroing primitive: given a sparse matrix and a row
index, set every stored entry in that row to the given value without altering
any other row's storage.  Entries of the row that are not stored keep their
(zero, under `SpMat.Wf`) value, and the stored structure is unchanged. -/
def csr_row_set_nz_to_val (M : SpMat) (i : ℕ) (x : ℚ) : SpMat :=
  ⟨fun r c => if r = i ∧ (r, c) ∈ M.stored then x else M.val r c, M.stored⟩

/-- Embeds `mat[i, j] = x` on a CSR matrix: the entry value is overwritten and the
position becomes stored (scipy inserts it, with a sparse-efficiency warning,
when it was not structural). -/
def SpMat.setEntry (M : SpMat) (i j : ℕ) (x : ℚ) : SpMat :=
  ⟨fun r c => if r = i ∧ c = j then x else M.val r c, insert (i, j) M.stored⟩

/-- Embeds `mat.eliminate_zeros()`: drop stored entries whose value is zero; entry
values are unchanged. -/
def SpMat.elimZeros (M : SpMat) : SpMat :=
  ⟨M.val, M.stored.filter (fun p => M.val p.1 p.2 ≠ 0)⟩

/-- One iteration of the `for i, val in diriBC` loop of `impose_diriBC`:
`utils.csr_row_set_nz_to_val(mat, i, 0.0)`, then `mat[i,i] = 1.0`, then
`q[i] = val`. -/
def imposeOne (Mq : SpMat × (ℕ → ℚ)) (pin : ℕ × ℚ) : SpMat × (ℕ → ℚ) :=
  ((csr_row_set_nz_to_val Mq.1 pin.1 0).setEntry pin.1 pin.1 1,
    Function.update Mq.2 pin.1 pin.2)

/-- Embeds `impose_diriBC(mat, q, diriBC)`: loop over the pin list in order, then
`mat.eliminate_zeros()` once after the loop. -/
def impose_diriBC (M : SpMat) (q : ℕ → ℚ) (L : List (ℕ × ℚ)) :
    SpMat × (ℕ → ℚ) :=
  ((L.foldl imposeOne (M, q)).1.elimZeros, (L.foldl imposeOne (M, q)).2)

/-- Accumulator step for the last value written to a given cell index. -/
def lastValStep (i : ℕ) (acc : Option ℚ) (p : ℕ × ℚ) : Option ℚ :=
  if p.1 = i then some p.2 else acc

/-- The value of the last pair of `L` whose cell index is `i`, if any. -/
def lastVal (L : List (ℕ × ℚ)) (i : ℕ) : Option ℚ :=
  L.foldl (lastValStep i) none

/-- The list of pinned cell indices. -/
def pinnedIdx (L : List (ℕ × ℚ)) : List ℕ := L.map Prod.fst

/-- Unfolding of one loop iteration into an explicit pair. -/
theorem imposeOne_eq (M : SpMat) (q : ℕ → ℚ) (i : ℕ) (v : ℚ) :
    imposeOne (M, q) (i, v)
      = ((csr_row_set_nz_to_val M i 0).setEntry i i 1, Function.update q i v) := rfl

/-- Values of the matrix after one loop iteration. -/
theorem setEntry_row_val (M : SpMat) (i : ℕ) (r c : ℕ) :
    ((csr_row_set_nz_to_val M i 0).setEntry i i 1).val r c
      = if r = i ∧ c = i then 1
        else if r = i ∧ (r, c) ∈ M.stored then 0 else M.val r c := rfl

/-- Stored positions after one loop iteration. -/
theorem setEntry_row_stored (M : SpMat) (i : ℕ) :
    ((csr_row_set_nz_to_val M i 0).setEntry i i 1).stored
      = insert (i, i) M.stored := rfl

theorem foldl_lastValStep (L : List (ℕ × ℚ)) (i : ℕ) (init : Option ℚ) :
    L.foldl (lastValStep i) init
      = match lastVal L i with
        | some v => some v
        | none => init := by
  induction L generalizing init with
  | nil => rfl
  | cons p L ih =>
    have hcons : lastVal (p :: L) i = L.foldl (lastValStep i) (lastValStep i none p) := rfl
    rw [List.foldl_cons, ih, hcons, ih]
    cases lastVal L i with
    | some v => rfl
    | none =>
      unfold lastValStep
      by_cases hp : p.1 = i
      · simp [hp]
      · simp [hp]

theorem lastVal_cons (p : ℕ × ℚ) (L : List (ℕ × ℚ)) (i : ℕ) :
    lastVal (p :: L) i
      = match lastVal L i with
        | some v => some v
        | none => if p.1 = i then some p.2 else none := by
  have hcons : lastVal (p :: L) i = L.foldl (lastValStep i) (lastValStep i none p) := rfl
  rw [hcons, foldl_lastValStep]
  cases lastVal L i with
  | some v => rfl
  | none => rfl

theorem lastVal_eq_none (L : List (ℕ × ℚ)) (r : ℕ) (h : r ∉ pinnedIdx L) :
    lastVal L r = none := by
  induction L with
  | nil => rfl
  | cons p L ih =>
    have hp : p.1 ≠ r := fun hc => h (by simp [pinnedIdx, hc])
    have hL : r ∉ pinnedIdx L := fun hc => h (by simp [pinnedIdx] at hc ⊢; tauto)
    rw [lastVal_cons, ih hL]
    simp [hp]

/-- Values after the imposition loop: pinned rows become the identity row up
to previously stored entries, which are zeroed; other rows are untouched. -/
theorem foldl_impose_val (L : List (ℕ × ℚ)) (M : SpMat) (q : ℕ → ℚ) (r c : ℕ) :
    (L.foldl imposeOne (M, q)).1.val r c
      = if r ∈ pinnedIdx L then
          (if c = r then 1 else if (r, c) ∈ M.stored then 0 else M.val r c)
        else M.val r c := by
  induction L generalizing M q with
  | nil => simp [pinnedIdx]
  | cons p L ih =>
    obtain ⟨i, v⟩ := p
    rw [List.foldl_cons, imposeOne_eq, ih, setEntry_row_stored, setEntry_row_val]
    split_ifs <;>
      first
        | rfl
        | (exfalso; simp_all [pinnedIdx, Finset.mem_insert, Prod.ext_iff])

/-- The right-hand side after the imposition loop: the last write wins. -/
theorem foldl_impose_q (L : List (ℕ × ℚ)) (M : SpMat) (q : ℕ → ℚ) (r : ℕ) :
    (L.foldl imposeOne (M, q)).2 r
      = match lastVal L r with
        | some v => v
        | none => q r := by
  induction L generalizing M q with
  | nil => rfl
  | cons p L ih =>
    obtain ⟨i, v⟩ := p
    rw [List.foldl_cons, imposeOne_eq, ih, lastVal_cons]
    cases lastVal L r with
    | some w => rfl
    | none =>
      show Function.update q i v r = _
      rw [Function.update_apply]
      by_cases hir : i = r
      · rw [if_pos hir.symm, if_pos hir]
      · rw [if_neg (fun hc => hir hc.symm), if_neg hir]

/-- Stored positions after the imposition loop: the original structure plus
the pinned diagonal positions. -/
theorem foldl_impose_stored (L : List (ℕ × ℚ)) (M : SpMat) (q : ℕ → ℚ) :
    (L.foldl imposeOne (M, q)).1.stored
      = M.stored ∪ (L.map (fun p => (p.1, p.1))).toFinset := by
  induction L generalizing M q with
  | nil => simp
  | cons p L ih =>
    obtain ⟨i, v⟩ := p
    rw [List.foldl_cons, imposeOne_eq, ih, setEntry_row_stored]
    ext x
    simp [Finset.mem_insert, Finset.mem_union]

/-- Lemma: `eliminate_zeros` leaves entry values unchanged. -/
theorem impose_val (M : SpMat) (q : ℕ → ℚ) (L : List (ℕ × ℚ)) (r c : ℕ) :
    (impose_diriBC M q L).1.val r c = (L.foldl imposeOne (M, q)).1.val r c := rfl

theorem impose_q (M : SpMat) (q : ℕ → ℚ) (L : List (ℕ × ℚ)) (r : ℕ) :
    (impose_diriBC M q L).2 r = (L.foldl imposeOne (M, q)).2 r := rfl

theorem impose_stored (M : SpMat) (q : ℕ → ℚ) (L : List (ℕ × ℚ)) :
    (impose_diriBC M q L).1.stored
      = ((L.foldl imposeOne (M, q)).1.stored).filter
          (fun p => (L.foldl imposeOne (M, q)).1.val p.1 p.2 ≠ 0) := rfl

/-- After imposition a pinned row reads as the identity row. -/
theorem impose_val_pinned (M : SpMat) (q : ℕ → ℚ) (L : List (ℕ × ℚ)) (hwf : M.Wf)
    (r c : ℕ) (hrL : r ∈ pinnedIdx L) :
    (impose_diriBC M q L).1.val r c = if c = r then 1 else 0 := by
  rw [impose_val, foldl_impose_val, if_pos hrL]
  by_cases hcr : c = r
  · rw [if_pos hcr, if_pos hcr]
  · rw [if_neg hcr, if_neg hcr]
    by_cases hst : (r, c) ∈ M.stored
    · rw [if_pos hst]
    · rw [if_neg hst]
      exact hwf r c hst

/-- Rows that are not pinned are untouched. -/
theorem impose_val_untouched (M : SpMat) (q : ℕ → ℚ) (L : List (ℕ × ℚ)) (r c : ℕ)
    (hr : r ∉ pinnedIdx L) :
    (impose_diriBC M q L).1.val r c = M.val r c := by
  rw [impose_val, foldl_impose_val, if_neg hr]

/-- Imposition preserves the CSR well-formedness invariant. -/
theorem impose_wf (M : SpMat) (q : ℕ → ℚ) (L : List (ℕ × ℚ)) (hwf : M.Wf) :
    (impose_diriBC M q L).1.Wf := by
  intro r c hmem
  rw [impose_stored] at hmem
  simp only [Finset.mem_filter, not_and, not_not] at hmem
  rw [impose_val, foldl_impose_val]
  by_cases hrL : r ∈ pinnedIdx L
  · rw [if_pos hrL]
    by_cases hcr : c = r
    · subst hcr
      exfalso
      have hin : (c, c) ∈ (L.foldl imposeOne (M, q)).1.stored := by
        rw [foldl_impose_stored]
        apply Finset.mem_union_right
        rw [List.mem_toFinset]
        obtain ⟨p, hpL, hp1⟩ := List.mem_map.mp hrL
        exact List.mem_map.mpr ⟨p, hpL, by rw [hp1]⟩
      have h0 := hmem hin
      rw [foldl_impose_val, if_pos hrL, if_pos rfl] at h0
      norm_num at h0
    · rw [if_neg hcr]
      by_cases hst : (r, c) ∈ M.stored
      · rw [if_pos hst]
      · rw [if_neg hst]
        exact hwf r c hst
  · rw [if_neg hrL]
    by_cases hst : (r, c) ∈ M.stored
    · have hin : (r, c) ∈ (L.foldl imposeOne (M, q)).1.stored := by
        rw [foldl_impose_stored]
        exact Finset.mem_union_left _ hst
      have h0 := hmem hin
      rw [foldl_impose_val, if_neg hrL] at h0
      exact h0
    · exact hwf r c hst

/-- C2: for every CSR matrix, right-hand side and pin list, after
`impose_diriBC(mat, q, diriBC)` each listed row is the identity row
(`mat[i,i] = 1`, all other entries of the row zero), `q[i]` carries the last
value written for index `i` in list order, and rows and right-hand-side
entries whose index is not listed are unchanged. -/
theorem impose_diriBC_pins_rows (M : SpMat) (q : ℕ → ℚ) (L : List (ℕ × ℚ))
    (hwf : M.Wf) :
    (∀ p ∈ L, (impose_diriBC M q L).1.val p.1 p.1 = 1
      ∧ ∀ c, c ≠ p.1 → (impose_diriBC M q L).1.val p.1 c = 0)
    ∧ (∀ i v, lastVal L i = some v → (impose_diriBC M q L).2 i = v)
    ∧ (∀ r, r ∉ pinnedIdx L →
        (∀ c, (impose_diriBC M q L).1.val r c = M.val r c)
        ∧ (impose_diriBC M q L).2 r = q r) := by
  refine ⟨?_, ?_, ?_⟩
  · intro p hp
    have hmem : p.1 ∈ pinnedIdx L := List.mem_map_of_mem Prod.fst hp
    constructor
    · rw [impose_val_pinned M q L hwf p.1 p.1 hmem, if_pos rfl]
    · intro c hc
      rw [impose_val_pinned M q L hwf p.1 c hmem, if_neg hc]
  · intro i v hlv
    rw [impose_q, foldl_impose_q, hlv]
  · intro r hr
    refine ⟨fun c => impose_val_untouched M q L r c hr, ?_⟩
    rw [impose_q, foldl_impose_q, lastVal_eq_none L r hr]

/-- C9: `impose_diriBC` is idempotent: a second application with the same pin
list reproduces both the entry values and the stored structure of the matrix,
and the same right-hand side. -/
theorem impose_diriBC_idempotent (M : SpMat) (q : ℕ → ℚ) (L : List (ℕ × ℚ))
    (hwf : M.Wf) :
    impose_diriBC (impose_diriBC M q L).1 (impose_diriBC M q L).2 L
      = impose_diriBC M q L := by
  have hwf1 := impose_wf M q L hwf
  have hval2 : ∀ r c,
      (impose_diriBC (impose_diriBC M q L).1 (impose_diriBC M q L).2 L).1.val r c
        = (impose_diriBC M q L).1.val r c := by
    intro r c
    by_cases hrL : r ∈ pinnedIdx L
    · rw [impose_val_pinned _ _ L hwf1 r c hrL, impose_val_pinned M q L hwf r c hrL]
    · rw [impose_val_untouched _ _ L r c hrL]
  apply Prod.ext
  · apply SpMat.ext
    · funext r c
      exact hval2 r c
    · ext x
      obtain ⟨xr, xc⟩ := x
      rw [impose_stored, foldl_impose_stored]
      simp only [Finset.mem_filter, Finset.mem_union]
      constructor
      · rintro ⟨hor, hne⟩
        rcases hor with h1 | h1
        · exact h1
        · rw [List.mem_toFinset] at h1
          obtain ⟨p, hpL, hpe⟩ := List.mem_map.mp h1
          have hxr : p.1 = xr := congrArg Prod.fst hpe
          have hxc : p.1 = xc := congrArg Prod.snd hpe
          rw [impose_stored, foldl_impose_stored]
          simp only [Finset.mem_filter, Finset.mem_union]
          refine ⟨Or.inr (by rw [List.mem_toFinset]; exact List.mem_map.mpr ⟨p, hpL, hpe⟩), ?_⟩
          rw [foldl_impose_val,
            if_pos (show xr ∈ pinnedIdx L by
              rw [← hxr]; exact List.mem_map_of_mem Prod.fst hpL),
            if_pos (by omega)]
          norm_num
      · intro hmem
        refine ⟨Or.inl hmem, ?_⟩
        have h2 : (impose_diriBC M q L).1.val xr xc ≠ 0 := by
          rw [impose_stored] at hmem
          exact (Finset.mem_filter.mp hmem).2
        have h3 : (L.foldl imposeOne ((impose_diriBC M q L).1, (impose_diriBC M q L).2)).1.val xr xc
            = (impose_diriBC M q L).1.val xr xc := by
          rw [← impose_val]
          exact hval2 xr xc
        rw [h3]
        exact h2
  · funext r
    rw [impose_q, foldl_impose_q]
    cases hl : lastVal L r with
    | some v =>
      rw [impose_q, foldl_impose_q, hl]
    | none => rfl

section ConcreteImpose

/-- A concrete well-formed sparse matrix with one stored entry. -/
def M0 : SpMat := ⟨fun r c => if r = 0 ∧ c = 1 then 5 else 0, {(0, 1)}⟩

/-- Concrete right-hand side. -/
def q0 : ℕ → ℚ := fun _ => 2

/-- Concrete pin list with a duplicated index. -/
def L0 : List (ℕ × ℚ) := [(1, 5), (1, 3)]

theorem M0_wf : M0.Wf := by
  intro r c h
  show (if r = 0 ∧ c = 1 then (5 : ℚ) else 0) = 0
  rw [if_neg (fun hc => h (Finset.mem_singleton.mpr (Prod.ext_iff.mpr ⟨hc.1, hc.2⟩)))]

end ConcreteImpose

/-- Witness for C2: pin list `[(1, 5), (1, 3)]` on the concrete matrix — the
pinned row becomes the identity row, the duplicated index keeps the last
value `3`, and row 0 and `q[0]` are untouched. -/
theorem impose_diriBC_pins_rows_witness :
    (impose_diriBC M0 q0 L0).1.val 1 1 = 1
    ∧ (impose_diriBC M0 q0 L0).1.val 1 0 = 0
    ∧ (impose_diriBC M0 q0 L0).2 1 = 3
    ∧ (impose_diriBC M0 q0 L0).1.val 0 1 = M0.val 0 1
    ∧ (impose_diriBC M0 q0 L0).2 0 = q0 0 :=
  ⟨((impose_diriBC_pins_rows M0 q0 L0 M0_wf).1 (1, 5) (by simp [L0])).1,
   ((impose_diriBC_pins_rows M0 q0 L0 M0_wf).1 (1, 5) (by simp [L0])).2 0 (by decide),
   (impose_diriBC_pins_rows M0 q0 L0 M0_wf).2.1 1 3 rfl,
   ((impose_diriBC_pins_rows M0 q0 L0 M0_wf).2.2 0 (by decide)).1 1,
   ((impose_diriBC_pins_rows M0 q0 L0 M0_wf).2.2 0 (by decide)).2⟩

/-- Witness for C9 at the concrete matrix and pin list. -/
theorem impose_diriBC_idempotent_witness :
    impose_diriBC (impose_diriBC M0 q0 L0).1 (impose_diriBC M0 q0 L0).2 L0
      = impose_diriBC M0 q0 L0 :=
  impose_diriBC_idempotent M0 q0 L0 M0_wf

section Solver

/-- The instance state of a `PressureSolver` object.  `k` and `diriBC` are
Python properties (class-level data descriptors), so their backing state
lives in the name-mangled slots `_PressureSolver__k` (`kPriv`) and
`_PressureSolver__diriBC` (`diriBCPriv`); `diriBCPriv = none` models the
attribute never having been assigned (reading it raises `AttributeError`).
`kDict`/`diriBCDict` model entries written directly into the instance
`__dict__` (by `update(**params)`): attribute reads ignore them because a
data descriptor takes precedence over the instance dictionary.  The
remaining fields are plain attributes. -/
structure SolverState where
  grid : Grid
  kPriv : Arr2
  kDict : Option Arr2
  q : ℕ → ℚ
  diriBCPriv : Option (List (ℕ × ℚ))
  diriBCDict : Option (List (ℕ × ℚ))
  mobi_fn : Option ((ℕ → ℚ) → ((ℕ → ℚ) × (ℕ → ℚ)))
  s : Option (ℕ → ℚ)
  p : Option (ℕ → ℕ → ℚ)
  v : Option ((ℕ → ℕ → ℚ) × (ℕ → ℕ → ℚ))

/-- The `k` property setter's guard `assert all(k > 0)`, where `all` is the
Python BUILTIN (numpy's `all` is not imported): it iterates the FIRST axis of
the 2-D array, so each element is a whole row of length `cols`, and `bool()`
of a multi-element numpy array raises
`ValueError: the truth value of an array with more than one element is
ambiguous`.  Only for single-column arrays (`cols = 1`) does the comparison
reduce to an elementwise check (an empty iteration yields `True`); a
violated check raises `AssertionError`. -/
def kCheck (k : Arr2) : Except PyErr Unit :=
  if k.rows = 0 then .ok ()
  else if k.cols = 1 then
    if h : ∀ i, i < k.rows → 0 < k.f i 0 then .ok ()
    else .error .assertionError
  else .error .valueError

/-- Embeds `PressureSolver.__init__(grid, k, q, diriBC, mobi_fn, s)`: the `k`
property setter runs its assert first; the `diriBC` property setter assigns
the default `[(int(ncell/2), 0.0)]` when the argument is `None` and —
lacking an `else` branch — assigns NOTHING when a list is supplied, leaving
the backing slot unset. -/
def mkSolver (grid : Grid) (k : Arr2) (q : ℕ → ℚ) (diriBC : Option (List (ℕ × ℚ)))
    (mobi_fn : Option ((ℕ → ℚ) → ((ℕ → ℚ) × (ℕ → ℚ)))) (s : Option (ℕ → ℚ)) :
    Except PyErr SolverState :=
  match kCheck k with
  | .error e => .error e
  | .ok _ =>
    .ok { grid := grid
          kPriv := k
          kDict := none
          q := q
          diriBCPriv := match diriBC with
                        | none => some [(grid.ncell / 2, 0)]
                        | some _ => none
          diriBCDict := none
          mobi_fn := mobi_fn
          s := s
          p := none
          v := none }

/-- Embeds `update(k=knew)`: `self.__dict__.update(params)` writes the instance
dictionary entry `'k'`; the `k` property (a data descriptor) shadows it, so
no positivity check runs and attribute reads are unaffected. -/
def SolverState.updateK (st : SolverState) (knew : Arr2) : SolverState :=
  { st with kDict := some knew }

/-- Embeds `update(s=snew)`: `s` is a plain attribute, so the dictionary write is
the attribute. -/
def SolverState.updateS (st : SolverState) (snew : ℕ → ℚ) : SolverState :=
  { st with s := some snew }

/-- Embeds `update(diriBC=bcnew)`: like `k`, shadowed by the property. -/
def SolverState.updateDiriBC (st : SolverState) (bcnew : List (ℕ × ℚ)) : SolverState :=
  { st with diriBCDict := some bcnew }

/-- The permeability that attribute reads (`self.k`) actually see: the
property getter returns the mangled slot. -/
def SolverState.kEff (st : SolverState) : Arr2 := st.kPriv

/-- The saturation that `step()` reads (`self.s`, a plain attribute). -/
def SolverState.sEff (st : SolverState) : Option (ℕ → ℚ) := st.s

/-- Embeds `PressureSolver.step()`, parameterised by the external sparse linear
solve capability `solve` standing for `scipy.sparse.linalg.spsolve`.
Mobility weighting multiplies a local copy of `k` by `(mw + mo)` reshaped to
`(ny, nx)`; the mobility-less branch only emits a warning.  `transmi` runs
before `self.diriBC` is read, so its `ValueError` (when `nx <= 1`) precedes
the `AttributeError` of an unset boundary list. -/
def SolverState.step (st : SolverState) (solve : SpMat → (ℕ → ℚ) → (ℕ → ℚ)) :
    Except PyErr SolverState :=
  let g := st.grid
  let kA := st.kEff
  let k2 : ℕ → ℕ → ℚ :=
    match st.mobi_fn, st.sEff with
    | some f, some sa => fun i j => kA.f i j * ((f sa).1 (i * g.nx + j) + (f sa).2 (i * g.nx + j))
    | _, _ => kA.f
  match transmi g k2 with
  | .error e => .error e
  | .ok (mat, tx, ty) =>
    match st.diriBCPriv with
    | none => .error .attributeError
    | some bc =>
      let mq := impose_diriBC mat st.q bc
      let pflat := solve mq.1 mq.2
      let pfield : ℕ → ℕ → ℚ := fun i j => pflat (i * g.nx + j)
      let vx : ℕ → ℕ → ℚ := fun i j =>
        if i < g.ny ∧ 1 ≤ j ∧ j < g.nx then (pfield i (j - 1) - pfield i j) * tx i j else 0
      let vy : ℕ → ℕ → ℚ := fun i j =>
        if 1 ≤ i ∧ i < g.ny ∧ j < g.nx then (pfield (i - 1) j - pfield i j) * ty i j else 0
      .ok { st with p := some pfield, v := some (vx, vy) }

end Solver

/-- C1: constructing a `PressureSolver` with the documented scenario
`Grid(3,3)`, `k = ones((3,3))`, `q = zeros(9)`,
`diriBC = [(4, 0.0), (0, 1.0)]` raises `ValueError` inside the `k` setter
(builtin `all` over a 2-D comparison), so no solver holding the list exists
and `step()` never runs; and even where construction succeeds (single-column
`k`), a caller-supplied non-`None` boundary list is dropped by the `diriBC`
setter, leaving the backing slot unset instead of holding the list. -/
theorem construct_with_diriBC_fails :
    mkSolver ⟨3, 3, 1, 1⟩ ⟨3, 3, fun _ _ => 1⟩ (fun _ => 0) (some [(4, 0), (0, 1)]) none none
      = .error .valueError
    ∧ ∃ st, mkSolver ⟨1, 2, 1, 1⟩ ⟨2, 1, fun _ _ => 1⟩ (fun _ => 0) (some [(0, 1)]) none none
        = .ok st ∧ st.diriBCPriv = none := by
  exact ⟨rfl, ⟨_, rfl, rfl⟩⟩

/-- Reachable solver state: `Grid(1,2)`, single-column `k = 1`, zero source,
default boundary list (pin cell `ncell/2 = 1` to `0.0`). -/
def stC5 : SolverState :=
  { grid := ⟨1, 2, 1, 1⟩, kPriv := ⟨2, 1, fun _ _ => 1⟩, kDict := none,
    q := fun _ => 0, diriBCPriv := some [(1, 0)], diriBCDict := none,
    mobi_fn := none, s := none, p := none, v := none }

/-- C5: no `step()` call ever produces a pressure field.  For any grid with
`nx >= 2` (such as `Grid(2,2)` with uniform `k`, zero source and a single
pin) construction already raises `ValueError` in the `k` assert; and for the
only constructible solvers (`nx = 1`), `step()` raises `ValueError` inside
`transmi`, because `spdiags` rejects the duplicated diagonal offsets
`[-1, -1, 0, 1, 1]` — regardless of the external linear solver. -/
theorem step_never_produces_pressure :
    mkSolver ⟨2, 2, 1, 1⟩ ⟨2, 2, fun _ _ => 1⟩ (fun _ => 0) (some [(0, 3)]) none none
      = .error .valueError
    ∧ mkSolver ⟨1, 2, 1, 1⟩ ⟨2, 1, fun _ _ => 1⟩ (fun _ => 0) none none none = .ok stC5
    ∧ ∀ solve, stC5.step solve = .error .valueError := by
  exact ⟨rfl, rfl, fun solve => rfl⟩

/-- C7: the permeability assert is broken: for an all-positive `(2, 2)`
array the assignment raises `ValueError` (ambiguous truth value of a
multi-element row) instead of succeeding; only single-column arrays are
actually checked elementwise, succeeding on positive entries and raising
`AssertionError` on a non-positive one. -/
theorem k_assert_raises_valueError :
    kCheck ⟨2, 2, fun _ _ => 1⟩ = .error .valueError
    ∧ kCheck ⟨2, 1, fun _ _ => 1⟩ = .ok ()
    ∧ kCheck ⟨2, 1, fun _ _ => -1⟩ = .error .assertionError := by
  exact ⟨rfl, rfl, rfl⟩

/-- Reachable solver state used for the C8 counterexample (same construction
as `stC5`). -/
def stC8 : SolverState :=
  { grid := ⟨1, 2, 1, 1⟩, kPriv := ⟨2, 1, fun _ _ => 1⟩, kDict := none,
    q := fun _ => 0, diriBCPriv := some [(1, 0)], diriBCDict := none,
    mobi_fn := none, s := none, p := none, v := none }

/-- Fresh strictly positive permeability passed to `update(k=...)`. -/
def kC8 : Arr2 := ⟨2, 1, fun _ _ => 2⟩

/-- C8 counterexample: on a freshly constructed solver, `update(k=k_new)`
with strictly positive `k_new` does NOT merge `k_new` into the state read by
`step()`: the `k` property still returns the old array. -/
theorem update_k_ignored_cex :
    mkSolver ⟨1, 2, 1, 1⟩ ⟨2, 1, fun _ _ => 1⟩ (fun _ => 0) none none none = .ok stC8
    ∧ (stC8.updateK kC8).kEff ≠ kC8 := by
  refine ⟨rfl, fun h => ?_⟩
  have h2 : (stC8.updateK kC8).kEff.f 0 0 = kC8.f 0 0 := by rw [h]
  have h3 : (1 : ℚ) = 2 := h2
  norm_num at h3

/-- C8 amended: `update(s=s_new)` replaces the saturation that the next
`step()` reads and leaves every other effective field unchanged; but
`update(k=k_new)` only writes an inert instance-dictionary entry — the `k`
property (and hence the permeability assembled by the next `step()`) is
unchanged, and no positivity check runs (the call never raises). -/
theorem update_merges_s_not_k (st : SolverState) (knew : Arr2) (snew : ℕ → ℚ) :
    (st.updateS snew).sEff = some snew
    ∧ (st.updateS snew).kEff = st.kEff
    ∧ (st.updateS snew).q = st.q
    ∧ (st.updateS snew).diriBCPriv = st.diriBCPriv
    ∧ (st.updateS snew).mobi_fn = st.mobi_fn
    ∧ (st.updateS snew).grid = st.grid
    ∧ (st.updateK knew).kEff = st.kEff
    ∧ (st.updateK knew).sEff = st.sEff
    ∧ (st.updateK knew).q = st.q
    ∧ (st.updateK knew).diriBCPriv = st.diriBCPriv
    ∧ (st.updateK knew).grid = st.grid :=
  ⟨rfl, rfl, rfl, rfl, rfl, rfl, rfl, rfl, rfl, rfl, rfl⟩

section Convecti

/-- A numpy ndarray of arbitrary rank: its shape and a value for each
multi-index. -/
structure NdArr where
  shape : List ℕ
  val : List ℕ → ℚ

/-- Elementwise `minimum(a, 0)`. -/
def NdArr.minimum0 (a : NdArr) : NdArr :=
  ⟨a.shape, fun ix => min (a.val ix) 0⟩

/-- Elementwise `maximum(a, 0)`. -/
def NdArr.maximum0 (a : NdArr) : NdArr :=
  ⟨a.shape, fun ix => max (a.val ix) 0⟩

/-- Basic indexing with three index expressions `a[:, :, lo:hi]` (slice on
axis 2).  numpy raises `IndexError: too many indices for array` when the
array has fewer than three axes. -/
def NdArr.slice3aLast (a : NdArr) (lo hi : ℕ) : Except PyErr NdArr :=
  match a.shape with
  | s0 :: s1 :: s2 :: rest =>
    .ok ⟨s0 :: s1 :: (min hi s2 - lo) :: rest,
      fun ix =>
        match ix with
        | i0 :: i1 :: i2 :: irest => a.val (i0 :: i1 :: (i2 + lo) :: irest)
        | _ => 0⟩
  | _ => .error .indexError

/-- Basic indexing with three index expressions `a[:, lo:hi, :]` (slice on
axis 1); also requires at least three axes. -/
def NdArr.slice3aMid (a : NdArr) (lo hi : ℕ) : Except PyErr NdArr :=
  match a.shape with
  | s0 :: s1 :: s2 :: rest =>
    .ok ⟨s0 :: (min hi s1 - lo) :: s2 :: rest,
      fun ix =>
        match ix with
        | i0 :: i1 :: i2 :: irest => a.val (i0 :: (i1 + lo) :: i2 :: irest)
        | _ => 0⟩
  | _ => .error .indexError

/-- Row-major decoding of a flat index against a shape. -/
def unflattenIdx : List ℕ → ℕ → List ℕ
  | [], _ => []
  | _ :: rest, m => (m / rest.prod) :: unflattenIdx rest (m % rest.prod)

/-- Embeds `.reshape(n)` to a flat vector: requires the total size to match. -/
def NdArr.reshapeFlat (a : NdArr) (n : ℕ) : Except PyErr (ℕ → ℚ) :=
  if a.shape.prod = n then .ok (fun m => a.val (unflattenIdx a.shape m))
  else .error .valueError

/-- Embeds `convecti(grid, v)`: upwind convection assembly.
`xn = minimum(v['x'], 0); x1 = xn[:,:,0:nx].reshape(n)` and the analogous
`y1`, `x2`, `y2` slices, then `spdiags([-y2, -x2, x2-x1+y2-y1, x1, y1],
[-nx,-1,0,1,nx], n, n)`.  The slice expressions use THREE indices. -/
def convecti (g : Grid) (vx vy : NdArr) : Except PyErr SpMat := do
  let xn := vx.minimum0
  let x1a ← xn.slice3aLast 0 g.nx
  let x1 ← x1a.reshapeFlat g.ncell
  let yn := vy.minimum0
  let y1a ← yn.slice3aMid 0 g.ny
  let y1 ← y1a.reshapeFlat g.ncell
  let xp := vx.maximum0
  let x2a ← xp.slice3aLast 1 (g.nx + 1)
  let x2 ← x2a.reshapeFlat g.ncell
  let yp := vy.maximum0
  let y2a ← yp.slice3aMid 1 (g.ny + 1)
  let y2 ← y2a.reshapeFlat g.ncell
  spdiagsPenta g.nx g.ncell (fun m => -y2 m) (fun m => -x2 m)
    (fun m => x2 m - x1 m + y2 m - y1 m) x1 y1

end Convecti

/-- C6: for every grid and flux field of the shapes produced by `step()`
(`v['x']` of shape `(ny, nx+1)`, `v['y']` of shape `(ny+1, nx)`), `convecti`
raises `IndexError`: its very first slice `xn[:,:,0:nx]` applies three
indices to the two-axis array `v['x']`, so no convection matrix is ever
assembled from a `step()` flux field. -/
theorem convecti_raises_indexError (g : Grid) (vx vy : NdArr)
    (hx : vx.shape = [g.ny, g.nx + 1]) (hy : vy.shape = [g.ny + 1, g.nx]) :
    convecti g vx vy = .error .indexError := by
  obtain ⟨sx, fx⟩ := vx
  simp only at hx
  subst hx
  rfl

/-- Witness for C6 on `Grid(2,2)` with zero flux fields of the `step()`
shapes. -/
theorem convecti_raises_indexError_witness :
    convecti ⟨2, 2, 1, 1⟩ ⟨[2, 3], fun _ => 0⟩ ⟨[3, 2], fun _ => 0⟩
      = .error .indexError :=
  convecti_raises_indexError ⟨2, 2, 1, 1⟩ ⟨[2, 3], fun _ => 0⟩ ⟨[3, 2], fun _ => 0⟩
    rfl rfl
